import Mathlib

/-!
Verification of the top-N selection core of `trtools` (`trtools/core/topper.py`)
and the `ListFrame` cache-invalidation logic (`trtools/tools/list_frame.py`).

Modelling conventions:
* A 1-D float sequence is a `List Cell` with `Cell := Option Int`: `none`
  models a NaN entry, `some v` a finite value.  The claims under study are
  order-theoretic (selection, sorting, counting), so any linear order is a
  faithful carrier for the finite values; we use `Int`.
* `np.sort` (ascending full sort) is `npSort`; `np.argsort` is `npArgsort`,
  realised as the stable argsort (ties broken by original position).  NumPy's
  default quicksort is not stable, but every property below depends only on
  the values at the produced positions, which agree for every compliant
  argsort since equal values are indistinguishable.
* bottleneck's `partsort(a, n)` / `argpartsort(a, n)` validate
  `1 <= n <= len(a)` and raise `ValueError` otherwise; we model the raise as
  `none`.  On success the contract is "the n smallest occupy the first n
  slots, unordered within each side"; we take the fully sorted array
  (resp. the stable full argsort) as the canonical representative, which is
  observationally equal at every call site below because each caller
  re-sorts the selected slice (by `np.sort` resp. by value via `np.argsort`)
  before returning.
* Python exceptions escaping a function are modelled by an `Option` result.
-/

/-- A cell of a 1-D float array: `none` is NaN, `some v` a finite value. -/
abbrev Cell := Option Int

/-- `arr[~np.isnan(arr)]`: the finite values of a sequence, in order. -/
def dropNaN (s : List Cell) : List Int := s.filterMap id

/-- `np.sort`: full ascending sort of a (NaN-free) value array. -/
def npSort (l : List Int) : List Int := l.insertionSort (· ≤ ·)

/-- The comparison `np.argsort` sorts positions by: value at the position,
ties broken by the position itself (stable representative). -/
def idxLe (a : List Int) (i j : Nat) : Prop :=
  a.getD i 0 < a.getD j 0 ∨ (a.getD i 0 = a.getD j 0 ∧ i ≤ j)

instance (a : List Int) : DecidableRel (idxLe a) := fun i j =>
  inferInstanceAs (Decidable (a.getD i 0 < a.getD j 0 ∨ (a.getD i 0 = a.getD j 0 ∧ i ≤ j)))

instance (a : List Int) : IsTotal Nat (idxLe a) where
  total i j := by
    unfold idxLe
    rcases lt_trichotomy (a.getD i 0) (a.getD j 0) with h | h | h
    · exact Or.inl (Or.inl h)
    · rcases Nat.le_total i j with hij | hij
      · exact Or.inl (Or.inr ⟨h, hij⟩)
      · exact Or.inr (Or.inr ⟨h.symm, hij⟩)
    · exact Or.inr (Or.inl h)

instance (a : List Int) : IsTrans Nat (idxLe a) where
  trans i j k hij hjk := by
    unfold idxLe at hij hjk ⊢
    rcases hij with h1 | h1 <;> rcases hjk with h2 | h2
    · exact Or.inl (h1.trans h2)
    · exact Or.inl (h2.1 ▸ h1)
    · exact Or.inl (h1.1 ▸ h2)
    · exact Or.inr ⟨h1.1.trans h2.1, h1.2.trans h2.2⟩

/-- `np.argsort`: positions `0 .. len-1` sorted by value (stable). -/
def npArgsort (a : List Int) : List Nat :=
  (List.range a.length).insertionSort (idxLe a)

/-- bottleneck `nb.partsort(a, n)`: requires `1 <= n <= len(a)` (else
`ValueError`, modelled `none`); partitions so the `n` smallest values occupy
`a[:n]`.  Canonical representative: the fully sorted array (see header). -/
def partsort (a : List Int) (n : Nat) : Option (List Int) :=
  if 1 ≤ n ∧ n ≤ a.length then some (npSort a) else none

/-- bottleneck `nb.argpartsort(a, n)`: requires `1 <= n <= len(a)` (else
`ValueError`, modelled `none`); the argument may be a negative Python int.
Canonical representative: the stable full argsort (see header). -/
def argpartsort (a : List Int) (n : Int) : Option (List Nat) :=
  if 1 ≤ n ∧ n ≤ (a.length : Int) then some (npArgsort a) else none

/-- `bn_topn(arr, N, ascending)` from `trtools/core/topper.py`: the top `N`
(or, for negative `N`, bottom `|N|`) finite values.  Mirrors the source:
default `ascending = not N > 0`; drop NaNs; for `N > 0` rebind
`N := len - min(|N|, len)` and slice `[N:]` of the partsort, for `N <= 0`
rebind `N := min(|N|, len)` and slice `[:N]`; if the rebound `N` is `0`,
bypass the partition and take the whole NaN-free array; finally `np.sort`
and reverse when descending.  (The `ndim > 1` guard is outside the model:
inputs here are 1-D lists by construction.) -/
def bn_topn (arr0 : List Cell) (N : Int) (ascending? : Option Bool) :
    Option (List Int) :=
  let ascending := ascending?.getD (!decide (N > 0))
  let arr := dropNaN arr0
  let n : Nat :=
    if N > 0 then arr.length - min N.natAbs arr.length
    else min N.natAbs arr.length
  let res : Option (List Int) :=
    if n = 0 then some arr
    else match partsort arr n with
      | none => none
      | some out => some (if N > 0 then out.drop n else out.take n)
  match res with
  | none => none
  | some bn_res => some
      (let bn_res := npSort bn_res
       if ascending then bn_res else bn_res.reverse)

/-- `np.where(~na_mask)[0]`: original positions of the finite entries. -/
def oldIndexMap (s : List Cell) : List Nat :=
  (List.range s.length).filter (fun i => (s.getD i none).isSome)

/-- `bn_topargn(arr, N, ascending)` from `trtools/core/topper.py`: positions
(into the original array, NaNs included) of the top `N` / bottom `|N|`
values.  Mirrors the source: default `ascending = not N > 0`; compact NaNs
remembering `old_index_map`; for `N > 0` rebind `N := len - |N|` (note: no
clamping against `len`, unlike `bn_topn`) and slice `[N:]`, for `N <= 0`
rebind `N := |N|` and slice `[:N]`; `argpartsort`; order the selected
positions by their values via `argsort`, reversing when descending; map back
through `old_index_map` when NaNs were present. -/
def bn_topargn (arr0 : List Cell) (N : Int) (ascending? : Option Bool) :
    Option (List Nat) :=
  let ascending := ascending?.getD (!decide (N > 0))
  let has_na := arr0.any (fun c => c.isNone)
  let old_index_map := oldIndexMap arr0
  let arr := dropNaN arr0
  let n : Int :=
    if N > 0 then (arr.length : Int) - N.natAbs
    else (N.natAbs : Int)
  match argpartsort arr n with
  | none => none
  | some out =>
    let index := if N > 0 then out.drop n.toNat else out.take n.toNat
    let index_sort := npArgsort (index.map (fun i => arr.getD i 0))
    let index_sort := if ascending then index_sort else index_sort.reverse
    let index := index_sort.map (fun j => index.getD j 0)
    some (if has_na then index.map (fun i => old_index_map.getD i 0) else index)

/-! ### Facts about the sort and argsort primitives -/

/-- `npSort` permutes its input. -/
theorem npSort_perm (l : List Int) : (npSort l).Perm l :=
  List.perm_insertionSort _ l

/-- `npSort` sorts ascending. -/
theorem npSort_sorted (l : List Int) : (npSort l).Sorted (· ≤ ·) :=
  List.sorted_insertionSort _ l

/-- Sorting an already sorted list is the identity. -/
theorem npSort_of_sorted {l : List Int} (h : l.Sorted (· ≤ ·)) : npSort l = l :=
  List.eq_of_perm_of_sorted (npSort_perm l) (npSort_sorted l) h

/-- Reading every position of a list back, in order, gives the list. -/
theorem map_getD_range {α : Type} (l : List α) (d : α) :
    (List.range l.length).map (fun i => l.getD i d) = l := by
  apply List.ext_getElem
  · simp
  · intro i h1 h2
    simp [List.getElem?_eq_getElem h2]

/-- `npArgsort` permutes the positions `0 .. len-1`. -/
theorem npArgsort_perm (a : List Int) : (npArgsort a).Perm (List.range a.length) :=
  List.perm_insertionSort _ _

/-- `npArgsort` returns as many positions as there are elements. -/
theorem length_npArgsort (a : List Int) : (npArgsort a).length = a.length := by
  simpa using (npArgsort_perm a).length_eq

/-- Every position returned by `npArgsort` is in range. -/
theorem mem_npArgsort_lt {a : List Int} {i : Nat} (h : i ∈ npArgsort a) :
    i < a.length := by
  simpa [List.mem_range] using (npArgsort_perm a).mem_iff.mp h

/-- `npArgsort` is sorted for the positional comparison. -/
theorem npArgsort_sorted (a : List Int) : (npArgsort a).Pairwise (idxLe a) :=
  List.sorted_insertionSort _ _

/-- Fundamental argsort law: reading the values at the argsorted positions
gives the sorted array (`a[np.argsort(a)] == np.sort(a)`). -/
theorem npArgsort_values (a : List Int) :
    (npArgsort a).map (fun i => a.getD i 0) = npSort a := by
  refine List.eq_of_perm_of_sorted ?_ ?_ (npSort_sorted a)
  · exact ((npArgsort_perm a).map _).trans
      (by rw [map_getD_range a 0]; exact (npSort_perm a).symm)
  · refine (npArgsort_sorted a).map _ ?_
    intro i j h
    rcases h with h | h
    · exact le_of_lt h
    · exact le_of_eq h.1

/-- Reading a single in-range position through `map`. -/
theorem getD_map_lt {α β : Type} (f : α → β) (l : List α) (j : Nat)
    (h : j < l.length) (d : β) (d' : α) :
    (l.map f).getD j d = f (l.getD j d') := by
  simp [List.getElem?_eq_getElem h, List.getElem?_eq_getElem (by simpa using h :
    j < (l.map f).length)]

/-- Positions read out of an in-range `getD` are members of the list. -/
theorem getD_mem_of_lt {α : Type} (l : List α) (j : Nat) (h : j < l.length)
    (d : α) : l.getD j d ∈ l := by
  rw [List.getD_eq_getElem?_getD, List.getElem?_eq_getElem h]
  exact List.getElem_mem h

/-! ### Closed form of `bn_topn` -/

/-- Final direction step shared by both selectors: keep the ascending order
or reverse it. -/
def applyDir (b : Bool) (l : List Int) : List Int := if b then l else l.reverse

/-- `bn_topn` never raises on 1-D input and returns: for `N > 0` the last
`min(|N|, M)` elements of the ascending sort of the finite values (`M` the
finite count), for `N < 0` the first `min(|N|, M)` elements, and for the
degenerate rebound count `0` (in particular `N = 0`) the whole sorted
finite-value list; reversed when the resolved direction is descending. -/
theorem bn_topn_eq (s : List Cell) (N : Int) (a : Option Bool) :
    bn_topn s N a = some (applyDir (a.getD (!decide (N > 0)))
      (if N > 0 then
        (npSort (dropNaN s)).drop
          ((dropNaN s).length - min N.natAbs (dropNaN s).length)
       else if min N.natAbs (dropNaN s).length = 0 then npSort (dropNaN s)
       else (npSort (dropNaN s)).take (min N.natAbs (dropNaN s).length))) := by
  unfold bn_topn applyDir
  by_cases hN : N > 0
  · simp only [if_pos hN]
    by_cases hz : (dropNaN s).length - min N.natAbs (dropNaN s).length = 0
    · rw [if_pos hz, hz, List.drop_zero]
    · rw [if_neg hz]
      unfold partsort
      rw [if_pos (by omega :
        1 ≤ (dropNaN s).length - min N.natAbs (dropNaN s).length ∧
        (dropNaN s).length - min N.natAbs (dropNaN s).length ≤
          (dropNaN s).length)]
      simp only [if_pos hN]
      rw [npSort_of_sorted ((npSort_sorted (dropNaN s)).drop)]
  · simp only [if_neg hN]
    by_cases hz : min N.natAbs (dropNaN s).length = 0
    · rw [if_pos hz, if_pos hz]
    · rw [if_neg hz, if_neg hz]
      unfold partsort
      rw [if_pos (by omega : 1 ≤ min N.natAbs (dropNaN s).length ∧
        min N.natAbs (dropNaN s).length ≤ (dropNaN s).length)]
      simp only [if_neg hN]
      rw [npSort_of_sorted ((npSort_sorted (dropNaN s)).take)]

/-! ### NaN compaction facts -/

/-- Compacting a NaN-free embedding recovers the values. -/
theorem dropNaN_map_some (l : List Int) : dropNaN (l.map some) = l := by
  induction l with
  | nil => rfl
  | cons x t ih =>
    have hc : dropNaN (some x :: t.map some) = x :: dropNaN (t.map some) := by
      simp [dropNaN, List.filterMap_cons]
    simp only [List.map_cons, hc, ih]

/-- A sequence with no NaN cell is its own compaction, wrapped in `some`. -/
theorem eq_map_some_of_no_na {s : List Cell}
    (h : s.any (fun c => c.isNone) = false) : s = (dropNaN s).map some := by
  induction s with
  | nil => rfl
  | cons c t ih =>
    cases c with
    | none => simp [List.any_cons] at h
    | some v =>
      simp only [List.any_cons, Option.isNone_some, Bool.false_or] at h
      have ht := ih h
      have hc : dropNaN (some v :: t) = v :: dropNaN t := by
        simp [dropNaN, List.filterMap_cons]
      rw [hc, List.map_cons, ← ht]

/-- There are at most as many finite values as cells. -/
theorem length_dropNaN_le (s : List Cell) : (dropNaN s).length ≤ s.length := by
  induction s with
  | nil => simp [dropNaN]
  | cons c t ih =>
    cases c <;> simp [dropNaN, List.filterMap_cons] at ih ⊢ <;> omega

/-- `oldIndexMap` unfolds on a cons cell. -/
theorem oldIndexMap_cons (c : Cell) (t : List Cell) :
    oldIndexMap (c :: t) =
      (if c.isSome then [0] else []) ++ (oldIndexMap t).map Nat.succ := by
  unfold oldIndexMap
  rw [List.length_cons, List.range_succ_eq_map, List.filter_cons,
    List.filter_map]
  cases c <;> simp [Function.comp_def]

/-- Reading the original sequence at the compaction positions, in order,
gives exactly the finite values. -/
theorem oldIndexMap_map_getD (s : List Cell) :
    (oldIndexMap s).map (fun i => s.getD i none) = (dropNaN s).map some := by
  induction s with
  | nil => rfl
  | cons c t ih =>
    rw [oldIndexMap_cons]
    cases c with
    | none =>
      show ([] ++ (oldIndexMap t).map Nat.succ).map
          (fun i => (none :: t).getD i none) = (dropNaN (none :: t)).map some
      rw [List.nil_append, List.map_map,
        (by simp [dropNaN, List.filterMap_cons] :
          dropNaN (none :: t) = dropNaN t), ← ih]
      exact List.map_congr_left fun i _ => rfl
    | some v =>
      show ([0] ++ (oldIndexMap t).map Nat.succ).map
          (fun i => (some v :: t).getD i none) = (dropNaN (some v :: t)).map some
      rw [List.singleton_append, List.map_cons, List.map_map,
        (by simp [dropNaN, List.filterMap_cons] :
          dropNaN (some v :: t) = v :: dropNaN t), List.map_cons, ← ih]
      exact congrArg _ (List.map_congr_left fun i _ => rfl)

/-- There are as many compaction positions as finite values. -/
theorem length_oldIndexMap (s : List Cell) :
    (oldIndexMap s).length = (dropNaN s).length := by
  have h := congrArg List.length (oldIndexMap_map_getD s)
  simpa using h

/-- Reading the original sequence at the `j`-th compaction position gives
the `j`-th finite value. -/
theorem getD_oldIndexMap (s : List Cell) (j : Nat)
    (h : j < (dropNaN s).length) :
    s.getD ((oldIndexMap s).getD j 0) none = some ((dropNaN s).getD j 0) := by
  have hlen : j < (oldIndexMap s).length := by rw [length_oldIndexMap]; exact h
  have := congrArg (fun l => l.getD j none) (oldIndexMap_map_getD s)
  simp only at this
  rw [getD_map_lt _ _ _ hlen none 0, getD_map_lt _ _ _ h none 0] at this
  exact this

/-- In a NaN-free sequence the `i`-th cell is the `i`-th finite value. -/
theorem getD_of_no_na {s : List Cell}
    (hna : s.any (fun c => c.isNone) = false) (i : Nat)
    (h : i < (dropNaN s).length) :
    s.getD i none = some ((dropNaN s).getD i 0) := by
  conv_lhs => rw [eq_map_some_of_no_na hna]
  exact getD_map_lt _ _ _ h none 0
/-! ### The value-ordering step of `bn_topargn` -/

/-- Reordering selected positions by `argsort` of their values and reading
the values back returns the (already sorted) value slice unchanged. -/
theorem sliceSort_values (arr : List Int) (index : List Nat)
    (hs : (index.map (fun i => arr.getD i 0)).Sorted (· ≤ ·)) :
    ((npArgsort (index.map (fun i => arr.getD i 0))).map
        (fun j => index.getD j 0)).map (fun i => arr.getD i 0) =
      index.map (fun i => arr.getD i 0) := by
  rw [List.map_map]
  have hcong : ∀ j ∈ npArgsort (index.map (fun i => arr.getD i 0)),
      ((fun i => arr.getD i 0) ∘ fun j => index.getD j 0) j =
        (index.map (fun i => arr.getD i 0)).getD j 0 := by
    intro j hj
    have hjlen : j < index.length := by
      have hlt := mem_npArgsort_lt hj
      rwa [List.length_map] at hlt
    simp only [Function.comp_apply]
    exact (getD_map_lt (fun i => arr.getD i 0) index j hjlen 0 0).symm
  rw [List.map_congr_left hcong]
  have hvals := npArgsort_values (index.map (fun i => arr.getD i 0))
  rw [hvals]
  exact npSort_of_sorted hs

/-- The positions produced by the reordering step stay within any bound the
selected positions satisfy. -/
theorem mem_sliceSort_lt {arr : List Int} {index : List Nat} {bound : Nat}
    (hmem : ∀ i ∈ index, i < bound) :
    ∀ i ∈ (npArgsort (index.map (fun i => arr.getD i 0))).map
        (fun j => index.getD j 0), i < bound := by
  intro i hi
  rcases List.mem_map.mp hi with ⟨j, hj, rfl⟩
  have hjlen : j < index.length := by
    have hlt := mem_npArgsort_lt hj
    rwa [List.length_map] at hlt
  exact hmem _ (getD_mem_of_lt index j hjlen 0)

/-- Reading the original sequence at the final positions (mapped back through
`old_index_map` when NaNs are present) yields the compacted values, wrapped
in `some`. -/
theorem read_values (s : List Cell) (l : List Nat)
    (hmem : ∀ i ∈ l, i < (dropNaN s).length) :
    (if (s.any fun c => c.isNone) = true then
        l.map (fun i => (oldIndexMap s).getD i 0)
      else l).map (fun i => s.getD i none) =
      (l.map (fun i => (dropNaN s).getD i 0)).map some := by
  cases hna : s.any fun c => c.isNone with
  | false =>
    rw [if_neg (by simp [hna]), List.map_map]
    apply List.map_congr_left
    intro i hi
    exact getD_of_no_na hna i (hmem i hi)
  | true =>
    rw [if_pos rfl, List.map_map, List.map_map]
    apply List.map_congr_left
    intro i hi
    exact getD_oldIndexMap s _ (hmem i hi)

/-- The value-reordering step (with the optional final reversal) reads back
the value slice in the requested direction. -/
theorem dir_values (arr : List Int) (index : List Nat) (asc : Bool)
    (hs : (index.map (fun i => arr.getD i 0)).Sorted (· ≤ ·)) :
    ((if asc then npArgsort (index.map (fun i => arr.getD i 0))
      else (npArgsort (index.map (fun i => arr.getD i 0))).reverse).map
      (fun j => index.getD j 0)).map (fun i => arr.getD i 0) =
    applyDir asc (index.map (fun i => arr.getD i 0)) := by
  cases asc with
  | true => simpa [applyDir] using sliceSort_values arr index hs
  | false =>
    rw [if_neg (by simp), List.map_reverse, List.map_reverse,
      sliceSort_values arr index hs]
    rfl

/-- The final positions stay within any bound the selected positions
satisfy, also after the optional reversal. -/
theorem dir_mem {arr : List Int} {index : List Nat} {bound : Nat} (asc : Bool)
    (hmem : ∀ i ∈ index, i < bound) :
    ∀ i ∈ ((if asc then npArgsort (index.map (fun i => arr.getD i 0))
        else (npArgsort (index.map (fun i => arr.getD i 0))).reverse).map
        (fun j => index.getD j 0)), i < bound := by
  cases asc with
  | true =>
    intro i hi
    rw [if_pos rfl] at hi
    exact mem_sliceSort_lt hmem i hi
  | false =>
    intro i hi
    rw [if_neg (by simp), List.map_reverse, List.mem_reverse] at hi
    exact mem_sliceSort_lt hmem i hi

/-- C1 (amended): round-trip law, restricted to the calls on which
`bn_topargn` succeeds.  Whenever `bn_topargn(s, N, asc)` returns positions
(rather than raising `ValueError` out of the partition primitive), indexing
`s` with those positions yields, element for element, exactly the values
returned by `bn_topn(s, N, asc)` — for sequences with and without NaNs, for
every `N` and every ascending choice. -/
theorem bn_topargn_roundtrip (s : List Cell) (N : Int) (a : Option Bool)
    (ix : List Nat) (h : bn_topargn s N a = some ix) :
    ∃ v, bn_topn s N a = some v ∧
      ix.map (fun i => s.getD i none) = v.map some := by
  refine ⟨_, bn_topn_eq s N a, ?_⟩
  simp only [bn_topargn] at h
  by_cases hN : N > 0
  · simp only [if_pos hN] at h
    cases hap : argpartsort (dropNaN s) ((dropNaN s).length - N.natAbs : Int) with
    | none => rw [hap] at h; exact absurd h (by simp)
    | some out =>
      rw [hap] at h
      dsimp only at h
      rw [Option.some.injEq] at h
      subst h
      unfold argpartsort at hap
      split at hap
      next hbnd =>
        rw [Option.some.injEq] at hap
        subst hap
        have hmin : min N.natAbs (dropNaN s).length = N.natAbs := by omega
        have htoNat : (((dropNaN s).length : Int) - N.natAbs).toNat =
            (dropNaN s).length - N.natAbs := by omega
        rw [applyDir, if_pos hN, hmin]
        rw [htoNat]
        have hkey : ((npArgsort (dropNaN s)).drop
              ((dropNaN s).length - N.natAbs)).map
              (fun i => (dropNaN s).getD i 0) =
            (npSort (dropNaN s)).drop ((dropNaN s).length - N.natAbs) := by
          rw [List.map_drop, npArgsort_values]
        have hsorted : (((npArgsort (dropNaN s)).drop
              ((dropNaN s).length - N.natAbs)).map
              (fun i => (dropNaN s).getD i 0)).Sorted (· ≤ ·) := by
          rw [hkey]; exact (npSort_sorted _).drop
        have hmem : ∀ i ∈ (npArgsort (dropNaN s)).drop
            ((dropNaN s).length - N.natAbs), i < (dropNaN s).length :=
          fun i hi => mem_npArgsort_lt (List.drop_subset _ _ hi)
        rw [read_values s _ (dir_mem _ hmem), dir_values _ _ _ hsorted,
          applyDir, hkey]
      next hbnd' => exact absurd hap (by simp)
  · simp only [if_neg hN] at h
    cases hap : argpartsort (dropNaN s) (N.natAbs : Int) with
    | none => rw [hap] at h; exact absurd h (by simp)
    | some out =>
      rw [hap] at h
      dsimp only at h
      rw [Option.some.injEq] at h
      subst h
      unfold argpartsort at hap
      split at hap
      next hbnd =>
        rw [Option.some.injEq] at hap
        subst hap
        have hmin : min N.natAbs (dropNaN s).length = N.natAbs := by omega
        have hz : ¬ min N.natAbs (dropNaN s).length = 0 := by omega
        have htoNat : ((N.natAbs : Int)).toNat = N.natAbs := by omega
        rw [applyDir, if_neg hN, if_neg hz, hmin]
        rw [htoNat]
        have hkey : ((npArgsort (dropNaN s)).take N.natAbs).map
              (fun i => (dropNaN s).getD i 0) =
            (npSort (dropNaN s)).take N.natAbs := by
          rw [List.map_take, npArgsort_values]
        have hsorted : (((npArgsort (dropNaN s)).take N.natAbs).map
              (fun i => (dropNaN s).getD i 0)).Sorted (· ≤ ·) := by
          rw [hkey]; exact (npSort_sorted _).take
        have hmem : ∀ i ∈ (npArgsort (dropNaN s)).take N.natAbs,
            i < (dropNaN s).length :=
          fun i hi => mem_npArgsort_lt (List.take_subset _ _ hi)
        rw [read_values s _ (dir_mem _ hmem), dir_values _ _ _ hsorted,
          applyDir, hkey]
      next hbnd' => exact absurd hap (by simp)

/-- `npSort` preserves length. -/
theorem length_npSort (l : List Int) : (npSort l).length = l.length :=
  (npSort_perm l).length_eq

/-- A NaN-free sequence has as many finite values as cells. -/
theorem length_dropNaN_of_no_na {s : List Cell}
    (h : s.any (fun c => c.isNone) = false) : (dropNaN s).length = s.length := by
  have hc := congrArg List.length (eq_map_some_of_no_na h)
  simpa using hc.symm

/-- C1 (counterexample): the round-trip law fails as universally stated.
On the NaN-free sequence `[1, 2]` with `N = 2` (so `N = M`), `bn_topn`
returns the two values but `bn_topargn` raises (`argpartsort` is called
with `n = 0`), so no index vector exists to index with. -/
theorem bn_topargn_roundtrip_cex :
    bn_topargn [some 1, some 2] 2 (some true) = none ∧
      bn_topn [some 1, some 2] 2 (some true) = some [1, 2] := by decide

/-- C1 (witness): the amended round-trip law at the spec's worked scenario
`s = [3, 1, NaN, 5, 2]`, `N = 2`, default direction. -/
theorem bn_topargn_roundtrip_witness :
    ∃ v, bn_topn [some 3, some 1, none, some 5, some 2] 2 none = some v ∧
      [3, 0].map
        (fun i => [some 3, some 1, none, some 5, some 2].getD i none) =
        v.map some :=
  bn_topargn_roundtrip [some 3, some 1, none, some 5, some 2] 2 none [3, 0]
    (by decide)

/-- C2 (counterexample): `bn_topargn` does not clamp `N` against the finite
count.  On `[1, 2]` (`M = 2`) with `N = 3` the claim asserts a successful
call returning `min(3, 2) = 2` positions; the code instead computes
`n = len - |N| = -1` and `argpartsort` raises `ValueError`. -/
theorem bn_topargn_no_clamp_cex : bn_topargn [some 1, some 2] 3 none = none := by
  decide

/-- C2 (amended): for `0 < N` strictly below the NaN-compacted length `M`
the call succeeds and returns exactly `N` positions (no clamping is needed
there); for `N ≥ M` the call instead propagates the partition primitive's
`ValueError` — the clamp `min(N, M)` present in `bn_topn` is absent from
`bn_topargn`. -/
theorem bn_topargn_success_length (s : List Cell) (N : Int) (a : Option Bool)
    (h1 : 0 < N) :
    (N < ((dropNaN s).length : Int) →
      ∃ ix, bn_topargn s N a = some ix ∧ ix.length = N.toNat) ∧
    (((dropNaN s).length : Int) ≤ N → bn_topargn s N a = none) := by
  have hN : N > 0 := h1
  constructor
  · intro h2
    simp only [bn_topargn, if_pos hN]
    have hb : 1 ≤ ((dropNaN s).length : Int) - N.natAbs ∧
        ((dropNaN s).length : Int) - N.natAbs ≤ ((dropNaN s).length : Int) := by
      omega
    simp only [argpartsort, if_pos hb]
    refine ⟨_, rfl, ?_⟩
    simp only [apply_ite List.length, List.length_map, List.length_reverse,
      length_npArgsort, List.length_drop, ite_self]
    omega
  · intro h2
    simp only [bn_topargn, if_pos hN, argpartsort]
    rw [if_neg (by omega :
      ¬ (1 ≤ ((dropNaN s).length : Int) - N.natAbs ∧
        ((dropNaN s).length : Int) - N.natAbs ≤ ((dropNaN s).length : Int)))]

/-- C2 (amended, witness): on `[3, 1, 5, 2]` with `N = 2 < 4` the call
returns two positions; with the finite count at most `N` it would raise. -/
theorem bn_topargn_success_length_witness :
    ((2 : Int) < ((dropNaN [some 3, some 1, some 5, some 2]).length : Int) →
      ∃ ix, bn_topargn [some 3, some 1, some 5, some 2] 2 none = some ix ∧
        ix.length = (2 : Int).toNat) ∧
    (((dropNaN [some 3, some 1, some 5, some 2]).length : Int) ≤ 2 →
      bn_topargn [some 3, some 1, some 5, some 2] 2 none = none) :=
  bn_topargn_success_length [some 3, some 1, some 5, some 2] 2 none
    (by decide)

/-- C3: the degenerate request `selectValues(s, 0, None)` does not raise and
returns all finite values of `s`, sorted ascending (default resolution gives
`ascending = not (0 > 0) = True`), with no truncation. -/
theorem bn_topn_zero_default_full_sorted (s : List Cell) :
    bn_topn s 0 none = some (npSort (dropNaN s)) := by
  rw [bn_topn_eq]
  simp [applyDir]

/-- C4 (counterexample): `N = 0` does not yield an empty result — on the
one-element sequence `[1]` it returns `[1]`. -/
theorem bn_topn_zero_not_empty_cex : bn_topn [some 1] 0 none ≠ some [] := by
  decide

/-- C4 (amended): a request with `N = 0` yields the full finite-value list
of the sequence, sorted per the resolved direction — a permutation of all
finite values, hence empty only when the sequence has no finite values. -/
theorem bn_topn_zero_full_set (s : List Cell) (a : Option Bool) :
    bn_topn s 0 a = some (applyDir (a.getD true) (npSort (dropNaN s))) ∧
      (applyDir (a.getD true) (npSort (dropNaN s))).Perm (dropNaN s) := by
  constructor
  · rw [bn_topn_eq]
    simp [applyDir]
  · cases a.getD true with
    | true => simpa [applyDir] using npSort_perm (dropNaN s)
    | false =>
      simp only [applyDir, Bool.false_eq_true, if_neg]
      exact ((npSort (dropNaN s)).reverse_perm).trans (npSort_perm (dropNaN s))

/-- C5: on a NaN-free sequence with `0 < N ≤ len(s)`, the ascending call
returns exactly `N` elements, sorted ascending. -/
theorem bn_topn_finite_len_sorted (s : List Cell) (N : Int)
    (hna : s.any (fun c => c.isNone) = false) (h1 : 0 < N)
    (h2 : N ≤ (s.length : Int)) :
    ∃ r, bn_topn s N (some true) = some r ∧ r.length = N.toNat ∧
      r.Sorted (· ≤ ·) := by
  have hN : N > 0 := h1
  have hlen : (dropNaN s).length = s.length := length_dropNaN_of_no_na hna
  refine ⟨_, bn_topn_eq s N (some true), ?_, ?_⟩
  · rw [if_pos hN]
    show ((npSort (dropNaN s)).drop
        ((dropNaN s).length - min N.natAbs (dropNaN s).length)).length = N.toNat
    rw [List.length_drop, length_npSort]
    omega
  · rw [if_pos hN]
    show ((npSort (dropNaN s)).drop
        ((dropNaN s).length - min N.natAbs (dropNaN s).length)).Sorted (· ≤ ·)
    exact (npSort_sorted _).drop

/-- C5 (witness): `selectValues([3, 1, 2], 2, True)` returns two elements,
sorted ascending. -/
theorem bn_topn_finite_len_sorted_witness :
    ∃ r, bn_topn [some 3, some 1, some 2] 2 (some true) = some r ∧
      r.length = (2 : Int).toNat ∧ r.Sorted (· ≤ ·) :=
  bn_topn_finite_len_sorted [some 3, some 1, some 2] 2 (by decide) (by decide)
    (by decide)

/-- C6: reversal law — for every sequence and every `N`, the reverse of
`selectValues(s, N, True)` is exactly `selectValues(s, N, False)`. -/
theorem bn_topn_reverse_law (s : List Cell) (N : Int) :
    (bn_topn s N (some true)).map List.reverse = bn_topn s N (some false) := by
  rw [bn_topn_eq, bn_topn_eq]
  simp [applyDir]

/-- C7: NaN exclusion — `selectValues` on any sequence equals
`selectValues` on its NaN-free version (the finite values re-embedded
without NaNs), for every `N` and every ascending choice.  In particular
inserting NaNs anywhere never changes the returned values, and not even the
result length. -/
theorem bn_topn_nan_exclusion (s : List Cell) (N : Int) (a : Option Bool) :
    bn_topn s N a = bn_topn ((dropNaN s).map some) N a := by
  rw [bn_topn_eq, bn_topn_eq, dropNaN_map_some]

/-! ### Row-wise driver `topn_df` -/

/-- A pandas DataFrame restricted to what `topn_df` observes: the row
labels (`self.index`, concretised as integers), the column count
(`len(self.columns)`), and the float cell matrix `self.values` (`none` =
NaN).  Well-formedness (`every row has length cols`) is carried as a
hypothesis where needed. -/
structure DFrame where
  index : List Int
  cols : Nat
  rows : List (List Cell)
deriving DecidableEq

/-- `ret[i][:len(r)] = r` on an output row of width `cols` pre-filled with
NaN: the NumPy slice assignment broadcasts exactly when `len(r) <= cols`
(the slice then has length `len(r)`), and raises `ValueError` otherwise. -/
def writeRow (cols : Nat) (r : List Int) : Option (List Cell) :=
  if r.length ≤ cols then
    some (r.map some ++ List.replicate (cols - r.length) none)
  else none

/-- The `for i in range(rows)` loop of `topn_df`: each row is passed to
`topn` and written into the output; an exception aborts the call. -/
def fillRows (cols : Nat) (N : Int) (a : Option Bool) :
    List (List Cell) → Option (List (List Cell))
  | [] => some []
  | row :: rest =>
    match bn_topn row N a with
    | none => none
    | some r =>
      match writeRow cols r with
      | none => none
      | some w =>
        match fillRows cols N a rest with
        | none => none
        | some rest' => some (w :: rest')

/-- `topn_df(self, N, ascending)` from `trtools/core/topper.py`: output
width `cols = min(len(self.columns), abs(N))`, output pre-filled with NaN,
each row's top-N written left-aligned, row labels preserved
(`pd.DataFrame(ret, index=self.index)`). -/
def topn_df (df : DFrame) (N : Int) (a : Option Bool) : Option DFrame :=
  let c := min df.cols N.natAbs
  match fillRows c N a df.rows with
  | none => none
  | some rs => some { index := df.index, cols := c, rows := rs }

/-- `applyDir` preserves length. -/
theorem length_applyDir (b : Bool) (l : List Int) :
    (applyDir b l).length = l.length := by
  cases b <;> simp [applyDir]

/-- `bn_topn` always succeeds and, for `N ≠ 0`, returns exactly
`min(|N|, M)` values (`M` the finite count). -/
theorem bn_topn_length (row : List Cell) (N : Int) (a : Option Bool)
    (hN : N ≠ 0) :
    ∃ r, bn_topn row N a = some r ∧
      r.length = min N.natAbs (dropNaN row).length := by
  refine ⟨_, bn_topn_eq row N a, ?_⟩
  by_cases hNp : N > 0
  · rw [if_pos hNp, length_applyDir, List.length_drop, length_npSort]
    omega
  · rw [if_neg hNp]
    by_cases hz : min N.natAbs (dropNaN row).length = 0
    · rw [if_pos hz, length_applyDir, length_npSort]
      omega
    · rw [if_neg hz, length_applyDir, List.length_take, length_npSort]
      omega

/-- When every row yields a result fitting the output width, the row loop
writes each row's result left-aligned and pads the tail with NaN. -/
theorem fillRows_eq_map (c : Nat) (N : Int) (a : Option Bool)
    (rows : List (List Cell))
    (h : ∀ row ∈ rows, ∃ r, bn_topn row N a = some r ∧ r.length ≤ c) :
    fillRows c N a rows = some (rows.map (fun row =>
      ((bn_topn row N a).getD []).map some ++
        List.replicate (c - ((bn_topn row N a).getD []).length) none)) := by
  induction rows with
  | nil => rfl
  | cons row rest ih =>
    obtain ⟨r, hr, hlen⟩ := h row (List.mem_cons_self row rest)
    have hrest := ih (fun row' hm => h row' (List.mem_cons_of_mem _ hm))
    simp only [fillRows, List.map_cons, hr, hrest, Option.getD_some]
    unfold writeRow
    rw [if_pos hlen]

/-- C8: for every table and every nonzero `N`, `topn_df` succeeds and
returns a table with exactly `min(columnCount, |N|)` columns, whose row `i`
is `bn_topn(row i, N, ascending)` written left-aligned with the remaining
trailing cells NaN, and whose row labels equal the input's, in order. -/
theorem topn_df_rowwise (df : DFrame) (N : Int) (a : Option Bool)
    (hN : N ≠ 0) (hw : ∀ row ∈ df.rows, row.length = df.cols) :
    topn_df df N a = some
      { index := df.index, cols := min df.cols N.natAbs,
        rows := df.rows.map (fun row =>
          ((bn_topn row N a).getD []).map some ++
            List.replicate
              (min df.cols N.natAbs - ((bn_topn row N a).getD []).length)
              none) } := by
  have h : ∀ row ∈ df.rows, ∃ r, bn_topn row N a = some r ∧
      r.length ≤ min df.cols N.natAbs := by
    intro row hm
    obtain ⟨r, hr, hlen⟩ := bn_topn_length row N a hN
    have h1 := length_dropNaN_le row
    have h2 := hw row hm
    exact ⟨r, hr, by omega⟩
  simp only [topn_df]
  rw [fillRows_eq_map _ _ _ _ h]

/-- C8 (witness): the spec's row-wise scenario — rows
`[[3,1,5,2],[9,NaN,4,0]]`, `N = 2` — gives a two-column table with rows
`[5,3]` and `[9,4]` and unchanged labels. -/
theorem topn_df_rowwise_witness :
    topn_df ⟨[10, 20], 4, [[some 3, some 1, some 5, some 2],
        [some 9, none, some 4, some 0]]⟩ 2 none = some
      { index := [10, 20], cols := min 4 (2 : Int).natAbs,
        rows := [[some 3, some 1, some 5, some 2],
            [some 9, none, some 4, some 0]].map (fun row =>
          ((bn_topn row 2 none).getD []).map some ++
            List.replicate
              (min 4 (2 : Int).natAbs - ((bn_topn row 2 none).getD []).length)
              none) } :=
  topn_df_rowwise ⟨[10, 20], 4, [[some 3, some 1, some 5, some 2],
    [some 9, none, some 4, some 0]]⟩ 2 none (by decide) (by decide)

/-- With `N = 0` the output is allocated with `0` columns, and the row loop
fails at the first row whose full finite-value result cannot be broadcast
into a zero-width row. -/
theorem fillRows_zero_none (a : Option Bool) (rows : List (List Cell))
    (h : ∃ row ∈ rows, dropNaN row ≠ []) :
    fillRows 0 0 a rows = none := by
  induction rows with
  | nil => simp at h
  | cons row rest ih =>
    obtain ⟨r, hr, hlen⟩ : ∃ r, bn_topn row 0 a = some r ∧
        r.length = (dropNaN row).length := by
      refine ⟨_, bn_topn_eq row 0 a, ?_⟩
      rw [if_neg (by omega : ¬ (0 : Int) > 0),
        if_pos (by simp : min (0 : Int).natAbs (dropNaN row).length = 0),
        length_applyDir, length_npSort]
    simp only [fillRows, hr]
    obtain ⟨row', hmem, hne⟩ := h
    rcases List.mem_cons.mp hmem with heq | hmem'
    · subst heq
      have hgt : ¬ r.length ≤ 0 := by
        have h0 : (dropNaN row').length ≠ 0 :=
          fun hc => hne (List.length_eq_zero.mp hc)
        omega
      unfold writeRow
      rw [if_neg hgt]
    · cases hwr : writeRow 0 r with
      | none => rfl
      | some w => rw [ih ⟨row', hmem', hne⟩]

/-- C10: the `N = 0` quirk does not extend to the row-wise driver — on any
table having at least one row with at least one finite value, `topn_df`
with `N = 0` raises (the per-row full finite-value result cannot be
written into the `min(columnCount, 0) = 0`-wide output row). -/
theorem topn_df_zero_raises (df : DFrame) (a : Option Bool)
    (h : ∃ row ∈ df.rows, ∃ v : Int, some v ∈ row) :
    topn_df df 0 a = none := by
  have h' : ∃ row ∈ df.rows, dropNaN row ≠ [] := by
    obtain ⟨row, hm, v, hv⟩ := h
    refine ⟨row, hm, ?_⟩
    have hvmem : v ∈ dropNaN row := List.mem_filterMap.mpr ⟨some v, hv, rfl⟩
    exact fun hc => by simp [hc] at hvmem
  simp only [topn_df]
  rw [(by simp : min df.cols (0 : Int).natAbs = 0),
    fillRows_zero_none a df.rows h']

/-- C10 (witness): a one-row table holding a finite value and a NaN fails
under `N = 0`. -/
theorem topn_df_zero_raises_witness :
    topn_df ⟨[0], 2, [[some 1, none]]⟩ 0 none = none :=
  topn_df_zero_raises ⟨[0], 2, [[some 1, none]]⟩ none
    ⟨[some 1, none], by decide, 1, by decide⟩

/-! ### `ListFrame` cache invalidation (`trtools/tools/list_frame.py`) -/

/-- `ListFrame(list)`: a list of objects together with the projection
configuration (`attrs`, `repr_col`) and the cached derived table
`_cache_df`.  The derived table rows are abstracted as `List Int`; the
attribute-extraction pipeline (`_process_attrs` / `_column_picker`) is
orthogonal to the cache claims and enters `to_frame` only through the row
projection argument. -/
structure ListFrame (α : Type) where
  data : List α
  attrs : Option (List String)
  repr_col : Bool
  cache_df : Option (List (List Int))

/-- `to_frame`: recompute the projection (`listframe_to_frame`) and store
it in `_cache_df`, returning it. -/
def ListFrame.to_frame {α : Type} (lf : ListFrame α) (proj : α → List Int) :
    ListFrame α × List (List Int) :=
  let fr := lf.data.map proj
  ({ lf with cache_df := some fr }, fr)

/-- The `mutation_methods` list that the rebinding loop walks. -/
def ListFrame.mutation_methods : List String :=
  ["append", "__setitem__", "__delitem__", "sort", "extend", "insert",
   "pop", "remove", "reverse"]

/-- Python `list.append`. -/
def pyAppend {α : Type} (x : α) (l : List α) : Option (List α) :=
  some (l ++ [x])

/-- Python `list.__setitem__` with an integer index: negative indices count
from the end; out-of-range raises `IndexError` (`none`). -/
def pySetitem {α : Type} (i : Int) (x : α) (l : List α) : Option (List α) :=
  let j := if i < 0 then i + l.length else i
  if 0 ≤ j ∧ j < l.length then some (l.set j.toNat x) else none

/-- Python `list.__delitem__` with an integer index. -/
def pyDelitem {α : Type} (i : Int) (l : List α) : Option (List α) :=
  let j := if i < 0 then i + l.length else i
  if 0 ≤ j ∧ j < l.length then some (l.eraseIdx j.toNat) else none

/-- Python `list.sort()` (ascending, stable). -/
def pySort {α : Type} [LinearOrder α] (l : List α) : Option (List α) :=
  some (l.insertionSort (· ≤ ·))

/-- Python `list.extend`. -/
def pyExtend {α : Type} (xs : List α) (l : List α) : Option (List α) :=
  some (l ++ xs)

/-- Python `list.insert`: out-of-range positions are clamped. -/
def pyInsert {α : Type} (i : Int) (x : α) (l : List α) : Option (List α) :=
  let j := if i < 0 then max 0 (i + l.length) else min i (l.length : Int)
  some (l.insertIdx j.toNat x)

/-- Python `list.pop()` (no argument: last element; `IndexError` on an
empty list). -/
def pyPop {α : Type} (l : List α) : Option (List α) :=
  if l.isEmpty then none else some l.dropLast

/-- Python `list.remove`: drop the first occurrence, `ValueError` if
absent. -/
def pyRemove {α : Type} [DecidableEq α] (x : α) (l : List α) :
    Option (List α) :=
  if x ∈ l then some (l.erase x) else none

/-- Python `list.reverse`. -/
def pyReverse {α : Type} (l : List α) : Option (List α) :=
  some l.reverse

/-- `_binder(method)` from `list_frame.py`: set `self._cache_df = None`,
then delegate to `super(ListFrame, self).method(*args, **kwargs)`.  The
second component records whether the super-call succeeded; on failure the
exception propagates, but the cache has already been cleared. -/
def binder {α : Type} (superMethod : List α → Option (List α))
    (lf : ListFrame α) : ListFrame α × Bool :=
  let lf' := { lf with cache_df := none }
  match superMethod lf'.data with
  | some d => ({ lf' with data := d }, true)
  | none => (lf', false)

/-- `ListFrame.append` after the rebinding loop. -/
def ListFrame.append {α : Type} (lf : ListFrame α) (x : α) :
    ListFrame α × Bool := binder (pyAppend x) lf

/-- `ListFrame.__setitem__` after the rebinding loop. -/
def ListFrame.setitem {α : Type} (lf : ListFrame α) (i : Int) (x : α) :
    ListFrame α × Bool := binder (pySetitem i x) lf

/-- `ListFrame.__delitem__` after the rebinding loop. -/
def ListFrame.delitem {α : Type} (lf : ListFrame α) (i : Int) :
    ListFrame α × Bool := binder (pyDelitem i) lf

/-- `ListFrame.sort` after the rebinding loop. -/
def ListFrame.sort {α : Type} [LinearOrder α] (lf : ListFrame α) :
    ListFrame α × Bool := binder pySort lf

/-- `ListFrame.extend` after the rebinding loop. -/
def ListFrame.extend {α : Type} (lf : ListFrame α) (xs : List α) :
    ListFrame α × Bool := binder (pyExtend xs) lf

/-- `ListFrame.insert` after the rebinding loop. -/
def ListFrame.insert {α : Type} (lf : ListFrame α) (i : Int) (x : α) :
    ListFrame α × Bool := binder (pyInsert i x) lf

/-- `ListFrame.pop` after the rebinding loop. -/
def ListFrame.pop {α : Type} (lf : ListFrame α) :
    ListFrame α × Bool := binder pyPop lf

/-- `ListFrame.remove` after the rebinding loop. -/
def ListFrame.remove {α : Type} [DecidableEq α] (lf : ListFrame α) (x : α) :
    ListFrame α × Bool := binder (pyRemove x) lf

/-- `ListFrame.reverse` after the rebinding loop. -/
def ListFrame.reverse {α : Type} (lf : ListFrame α) :
    ListFrame α × Bool := binder pyReverse lf

/-- Whatever the super-method does, `_binder` leaves the cache cleared. -/
theorem binder_clears_cache {α : Type} (f : List α → Option (List α))
    (lf : ListFrame α) : (binder f lf).1.cache_df = none := by
  show (match f lf.data with
    | some d =>
        ({ lf with cache_df := none, data := d }, true)
    | none => ({ lf with cache_df := none }, false)).1.cache_df = none
  cases f lf.data <;> rfl

/-- C9: every mutating list operation of `ListFrame` — `append`,
`__setitem__`, `__delitem__`, `sort`, `extend`, `insert`, `pop`, `remove`,
`reverse` — sets the cached projection `_cache_df` to `None` (even when
the underlying list operation raises), so a cached derived table never
survives a mutation of the underlying collection. -/
theorem listframe_mutators_clear_cache {α : Type} [LinearOrder α]
    [DecidableEq α] (lf : ListFrame α) (x : α) (xs : List α) (i : Int) :
    (lf.append x).1.cache_df = none ∧
    (lf.setitem i x).1.cache_df = none ∧
    (lf.delitem i).1.cache_df = none ∧
    lf.sort.1.cache_df = none ∧
    (lf.extend xs).1.cache_df = none ∧
    (lf.insert i x).1.cache_df = none ∧
    lf.pop.1.cache_df = none ∧
    (lf.remove x).1.cache_df = none ∧
    lf.reverse.1.cache_df = none :=
  ⟨binder_clears_cache _ lf, binder_clears_cache _ lf,
   binder_clears_cache _ lf, binder_clears_cache _ lf,
   binder_clears_cache _ lf, binder_clears_cache _ lf,
   binder_clears_cache _ lf, binder_clears_cache _ lf,
   binder_clears_cache _ lf⟩

/-- C9 (witness): the nine conjuncts at a concrete integer `ListFrame`
carrying a non-`None` cache. -/
theorem listframe_mutators_clear_cache_witness :
    ((⟨[1, 2], none, false, some [[7]]⟩ : ListFrame Int).append 5).1.cache_df
        = none ∧
    ((⟨[1, 2], none, false, some [[7]]⟩ : ListFrame Int).setitem 0 5).1.cache_df
        = none ∧
    ((⟨[1, 2], none, false, some [[7]]⟩ : ListFrame Int).delitem 0).1.cache_df
        = none ∧
    (⟨[1, 2], none, false, some [[7]]⟩ : ListFrame Int).sort.1.cache_df
        = none ∧
    ((⟨[1, 2], none, false, some [[7]]⟩ : ListFrame Int).extend [3]).1.cache_df
        = none ∧
    ((⟨[1, 2], none, false, some [[7]]⟩ : ListFrame Int).insert 0 5).1.cache_df
        = none ∧
    (⟨[1, 2], none, false, some [[7]]⟩ : ListFrame Int).pop.1.cache_df
        = none ∧
    ((⟨[1, 2], none, false, some [[7]]⟩ : ListFrame Int).remove 5).1.cache_df
        = none ∧
    (⟨[1, 2], none, false, some [[7]]⟩ : ListFrame Int).reverse.1.cache_df
        = none :=
  listframe_mutators_clear_cache (⟨[1, 2], none, false, some [[7]]⟩ :
    ListFrame Int) 5 [3] 0

/-! ### Sanity checks against the worked scenarios of the specification -/

/-- Scenario `s = [3, 1, NaN, 5, 2]`, `N = 2`: values `[5, 3]`. -/
theorem scenario_topn_pos :
    bn_topn [some 3, some 1, none, some 5, some 2] 2 none = some [5, 3] := by
  decide

/-- Scenario `s = [3, 1, NaN, 5, 2]`, `N = 2`: original positions
`[3, 0]`. -/
theorem scenario_topargn_pos :
    bn_topargn [some 3, some 1, none, some 5, some 2] 2 none = some [3, 0] := by
  decide

/-- Scenario `s = [3, 1, 5, 2]`, `N = -2`: values `[1, 2]`. -/
theorem scenario_topn_neg :
    bn_topn [some 3, some 1, some 5, some 2] (-2) none = some [1, 2] := by
  decide

/-- Scenario `s = [3, 1, 5, 2]`, `N = -2`: positions `[1, 3]`. -/
theorem scenario_topargn_neg :
    bn_topargn [some 3, some 1, some 5, some 2] (-2) none = some [1, 3] := by
  decide

/-- `bn_topargn` succeeds on a strict-sub-length request. -/
theorem scenario_topargn_small :
    bn_topargn [some 1, some 2] 1 none = some [1] := by decide
